import Mathlib

/-!
A verification development for `searchengine.py`: an in-memory inverted
index over text documents with conjunctive (AND) search.

The Python program is embedded shallowly:

* Python strings are `String`; `str.split()`, `str.strip`, `str.lower()`
  and `s[:-1]` are modelled character-exactly on ASCII input
  (`pySplit`, `pyStrip`, `pyLower`, `pyDropLast`).
* Python dicts (which preserve insertion order and update values of
  existing keys in place) are association lists with `dictLookup`
  (first match) and `dictSet` (update first occurrence in place,
  append when the key is new).
* A document source is a `Doc`: its file name and the list of lines the
  Python file iterator yields (every line carries its trailing newline
  except possibly the last one).  An empty file makes `next(f)` raise
  `StopIteration`, which aborts `create_index`; `create_index` therefore
  returns a `BuildResult` carrying the accumulators built so far plus a
  success flag.
* `search` performs `words[0]` before checking `len(words)`, so a query
  with zero terms raises `IndexError`; it is embedded as returning
  `Option`, with `none` for that failure.
-/

set_option autoImplicit false

/-- Python whitespace for `str.split()` / `str.strip()`, ASCII fragment:
space, tab, newline, carriage return, vertical tab, form feed. -/
def isSpaceChar (c : Char) : Bool :=
  c = ' ' ∨ c = '\t' ∨ c = '\n' ∨ c = '\r' ∨ c = Char.ofNat 11 ∨ c = Char.ofNat 12

/-- Membership in Python's `string.punctuation`
(ASCII codes 33-47, 58-64, 91-96, 123-126). -/
def isPunct (c : Char) : Bool :=
  (33 ≤ c.toNat ∧ c.toNat ≤ 47) ∨ (58 ≤ c.toNat ∧ c.toNat ≤ 64) ∨
    (91 ≤ c.toNat ∧ c.toNat ≤ 96) ∨ (123 ≤ c.toNat ∧ c.toNat ≤ 126)

/-- Strip characters satisfying `p` from both ends of a character list. -/
def stripList (p : Char → Bool) (l : List Char) : List Char :=
  ((l.dropWhile p).reverse.dropWhile p).reverse

/-- Python `s.strip(chars)`: drop leading and trailing characters
satisfying `p`. -/
def pyStrip (p : Char → Bool) (s : String) : String :=
  (stripList p s.toList).asString

/-- Python `s.lower()` (ASCII case folding). -/
def pyLower (s : String) : String :=
  (s.toList.map Char.toLower).asString

/-- Python `s[:-1]`: the string with its final character removed. -/
def pyDropLast (s : String) : String :=
  s.toList.dropLast.asString

/-- Helper for `pySplit`: accumulate the current word (reversed) while
scanning the characters. -/
def wordsAux (cur : List Char) : List Char → List (List Char)
  | [] => if cur = [] then [] else [cur.reverse]
  | c :: cs =>
      if isSpaceChar c then
        if cur = [] then wordsAux [] cs else cur.reverse :: wordsAux [] cs
      else wordsAux (c :: cur) cs

/-- Python `s.split()` with no argument: split on runs of whitespace,
dropping empty segments. -/
def pySplit (s : String) : List String :=
  (wordsAux [] s.toList).map List.asString

/-- `make_list_of_words(line)`: `line.strip()` then `line.split()`. -/
def make_list_of_words (line : String) : List String :=
  pySplit (pyStrip isSpaceChar line)

/-- `clean_word(word)`: strip whitespace, lower-case, then strip
leading/trailing `string.punctuation`. -/
def clean_word (word : String) : String :=
  pyStrip isPunct (pyLower (pyStrip isSpaceChar word))

/-- Python `d[k]` as a total lookup: the value at the first occurrence of
the key, `none` when absent (`k in d` is `(dictLookup d k).isSome`). -/
def dictLookup {α : Type} : List (String × α) → String → Option α
  | [], _ => none
  | (k, v) :: rest, key => if key = k then some v else dictLookup rest key

/-- Python `d[k] = v`: replace the value at an existing key in place,
append a new binding at the end otherwise. -/
def dictSet {α : Type} : List (String × α) → String → α → List (String × α)
  | [], key, val => [(key, val)]
  | (k, v) :: rest, key, val =>
      if key = k then (k, val) :: rest else (k, v) :: dictSet rest key val

/-- The inverted index: term `→` ordered list of file names. -/
abbrev Index := List (String × List String)

/-- The title map: file name `→` article title. -/
abbrev Titles := List (String × String)

/-- `add_term_to_index(index, term, file)`: create the entry `[file]` for a
new term, otherwise append `file` only when it is not already present. -/
def add_term_to_index (index : Index) (term file : String) : Index :=
  match dictLookup index term with
  | none => dictSet index term [file]
  | some files => if file ∈ files then index else dictSet index term (files ++ [file])

/-- The per-line indexing loop of `create_index`: clean each raw word and
add every non-empty cleaned term. -/
def addWords (index : Index) (file : String) (ws : List String) : Index :=
  ws.foldl (fun idx w =>
    if clean_word w = "" then idx else add_term_to_index idx (clean_word w) file) index

/-- The `for line in f` loop of `create_index` over the remaining lines. -/
def indexLines (index : Index) (file : String) (lines : List String) : Index :=
  lines.foldl (fun idx line => addWords idx file (make_list_of_words line)) index

/-- One document source: its file name and the lines Python's file
iterator yields (each line keeps its trailing newline, except possibly
the last line of the file). -/
structure Doc where
  id : String
  lines : List String

/-- The state after a `create_index` call: the two accumulators, and
whether the call ran to completion (`ok = false` records the
`StopIteration` raised by `next(f)` on an empty document). -/
structure BuildResult where
  index : Index
  titles : Titles
  ok : Bool

/-- The body of `create_index` for one document with first line `first`
and remaining lines `rest`: store the title under the file name when the
title string is not already a key of `file_titles` (this is what the code
tests), then index the title words and every remaining line. -/
def processDoc (index : Index) (titles : Titles) (file first : String)
    (rest : List String) : Index × Titles :=
  let title := pyDropLast first
  let titles' := if dictLookup titles title = none then dictSet titles file title else titles
  let index' := addWords index file (make_list_of_words title)
  (indexLines index' file rest, titles')

/-- `create_index(filenames, index, file_titles)`: process each document in
order; an empty document aborts the call, keeping the work already done. -/
def create_index : List Doc → Index → Titles → BuildResult
  | [], index, titles => ⟨index, titles, true⟩
  | d :: ds, index, titles =>
    match d.lines with
    | [] => ⟨index, titles, false⟩
    | first :: rest =>
      let p := processDoc index titles d.id first rest
      create_index ds p.1 p.2

/-- `find_intersection(list1, list2)`, embedded loop for loop: for each
element of `list1`, scan all of `list2` and append the element to the
accumulator at the first match unless it is already there. -/
def find_intersection (list1 list2 : List String) : List String :=
  list1.foldl (fun inter elem =>
    list2.foldl (fun inter2 elem_2 =>
      if elem = elem_2 then (if elem ∈ inter2 then inter2 else inter2 ++ [elem]) else inter2)
      inter) []

/-- `list_of_files.pop()` iterated `n` times (each pop removes the last
element). -/
def popNList (l : List String) : Nat → List String
  | 0 => l
  | n + 1 => popNList l.dropLast n

/-- The `for j in range(len(list_of_files)): list_of_files.pop()` loop. -/
def popAllList (l : List String) : List String :=
  popNList l l.length

/-- One iteration of the multi-term loop of `search`: an absent term
empties the running result via the pop loop, a present term replaces it
with the intersection. -/
def searchStep (index : Index) (acc : List String) (t : String) : List String :=
  match dictLookup index t with
  | none => popAllList acc
  | some l2 => find_intersection acc l2

/-- `search(index, query)`.  `words[0]` is evaluated before `len(words)`
is inspected, so zero query terms raise `IndexError` (`none` here).  With
one term the result is the term's stored list, or `[]`; with more terms
the running result starts from the first term's list and is folded
through the remaining terms by `searchStep`. -/
def search (index : Index) (query : String) : Option (List String) :=
  match pySplit query with
  | [] => none
  | first_term :: rest =>
    let start := match dictLookup index first_term with
      | some l => l
      | none => []
    some (rest.foldl (searchStep index) start)

/-- Document `D` is listed for term `t`: `t` is a key of the index and
`D` occurs in its document list. -/
def docInTerm (index : Index) (t D : String) : Prop :=
  ∃ l, dictLookup index t = some l ∧ D ∈ l

/-- The effect of one outer-loop iteration of `find_intersection`. -/
def interStep (list2 inter : List String) (elem : String) : List String :=
  if elem ∈ list2 ∧ elem ∉ inter then inter ++ [elem] else inter

/-- The effect of indexing document `d` is fully reflected in the
accumulators: every non-empty cleaned term of the title line and of the
body lines lists `d.id`, and the title-map branch of `create_index`
(which tests the title string against the keys) can make no further
change: either the title string is a key, or `d.id` already maps to it. -/
def Applied (d : Doc) (index : Index) (titles : Titles) : Prop :=
  match d.lines with
  | [] => True
  | first :: rest =>
    (∀ w ∈ make_list_of_words (pyDropLast first), clean_word w ≠ "" →
        docInTerm index (clean_word w) d.id) ∧
      (∀ line ∈ rest, ∀ w ∈ make_list_of_words line, clean_word w ≠ "" →
        docInTerm index (clean_word w) d.id) ∧
      ((dictLookup titles (pyDropLast first)).isSome
        ∨ dictLookup titles d.id = some (pyDropLast first))

/-- The document list is consistent: two entries with the same file name
denote the same file, hence have the same content (as is forced when the
lines are read from the file system). -/
def idsConsistent (docs : List Doc) : Prop :=
  ∀ d1 ∈ docs, ∀ d2 ∈ docs, d1.id = d2.id → d1.lines = d2.lines

/-- A store of Python list objects, for stating that `search` has no
side effect on the index: a cell number is a reference to a mutable
list of file names. -/
structure Heap where
  cells : List (List String)
deriving DecidableEq

/-- Read the list object at reference `r`. -/
def Heap.get (h : Heap) (r : Nat) : List String :=
  h.cells.getD r []

/-- Overwrite the list object at reference `r` (in-place mutation such as
`+=`, `append` or `pop` on the referenced list). -/
def Heap.set (h : Heap) (r : Nat) (v : List String) : Heap :=
  ⟨h.cells.set r v⟩

/-- Create a fresh list object, returning the new heap and its
reference. -/
def Heap.alloc (h : Heap) (v : List String) : Heap × Nat :=
  (⟨h.cells ++ [v]⟩, h.cells.length)

/-- The inverted index as the heap sees it: term `→` reference to that
term's document-list object. -/
abbrev IndexH := List (String × Nat)

/-- `n` executions of `list_of_files.pop()` on the object at `r`. -/
def popNH (h : Heap) (r : Nat) : Nat → Heap
  | 0 => h
  | n + 1 => popNH (h.set r ((h.get r).dropLast)) r n

/-- Heap-level version of one iteration of the multi-term loop of
`search`: an absent term runs the pop loop on the current
`list_of_files` object; a present term allocates the fresh list built by
`find_intersection` and rebinds `list_of_files` to it. -/
def searchStepH (index : IndexH) (st : Heap × Nat) (t : String) : Heap × Nat :=
  match dictLookup index t with
  | none => (popNH st.1 st.2 ((st.1.get st.2).length), st.2)
  | some r => st.1.alloc (find_intersection (st.1.get st.2) (st.1.get r))

/-- Heap-level `search(index, query)`: `list_of_files = []` allocates a
fresh object; `list_of_files += index[first_term]` extends that object in
place; then the remaining terms are folded with `searchStepH`.  Returns
the final heap and the reference to the result object (`none` models the
`IndexError` of `words[0]` on an empty query). -/
def searchH (h : Heap) (index : IndexH) (query : String) : Option (Heap × Nat) :=
  match pySplit query with
  | [] => none
  | first_term :: rest =>
    let a := h.alloc []
    let h2 := match dictLookup index first_term with
      | some r => a.1.set a.2 ((a.1.get a.2) ++ (a.1.get r))
      | none => a.1
    some (rest.foldl (searchStepH index) (h2, a.2))

/-- Frame invariant carried through the multi-term loop: every cell of
the original heap is untouched, the heap only grew, and the current
`list_of_files` reference points outside the original heap. -/
def FrameInv (h0 : Heap) (st : Heap × Nat) : Prop :=
  (∀ r < h0.cells.length, st.1.get r = h0.get r) ∧
    h0.cells.length ≤ st.1.cells.length ∧ h0.cells.length ≤ st.2

theorem dictLookup_dictSet {α : Type} (d : List (String × α)) (k : String) (v : α)
    (t : String) :
    dictLookup (dictSet d k v) t = if t = k then some v else dictLookup d t := by
  induction d with
  | nil => simp [dictSet, dictLookup]
  | cons p rest ih =>
    obtain ⟨k1, v1⟩ := p
    by_cases h1 : k = k1
    · subst h1
      simp only [dictSet, if_pos rfl, dictLookup]
      by_cases h2 : t = k <;> simp [h2]
    · simp only [dictSet, if_neg h1, dictLookup, ih]
      by_cases h2 : t = k1
      · subst h2
        simp [Ne.symm h1]
      · simp [h2]

theorem dictSet_lookup_eq {α : Type} (d : List (String × α)) (k : String) (v : α)
    (h : dictLookup d k = some v) : dictSet d k v = d := by
  induction d with
  | nil => simp [dictLookup] at h
  | cons p rest ih =>
    obtain ⟨k1, v1⟩ := p
    simp only [dictLookup] at h
    by_cases h1 : k = k1
    · subst h1
      simp at h
      simp [dictSet, h]
    · simp only [if_neg h1] at h
      simp [dictSet, h1, ih h]

/-- The inner loop of `find_intersection` over `list2` appends `elem` to
the accumulator exactly when `elem` occurs in `list2` and is not already
accumulated. -/
theorem inner_fold_eq (elem : String) (list2 acc : List String) :
    list2.foldl (fun inter2 elem_2 =>
      if elem = elem_2 then (if elem ∈ inter2 then inter2 else inter2 ++ [elem]) else inter2)
      acc
    = if elem ∈ list2 ∧ elem ∉ acc then acc ++ [elem] else acc := by
  induction list2 generalizing acc with
  | nil => simp
  | cons e2 l2 ih =>
    simp only [List.foldl_cons]
    by_cases h1 : elem = e2
    · subst h1
      by_cases h2 : elem ∈ acc
      · simp [h2, ih]
      · simp [h2, ih]
    · rw [if_neg h1, ih]
      simp [List.mem_cons, h1]

theorem find_intersection_eq_foldl (list1 list2 : List String) :
    find_intersection list1 list2 = list1.foldl (interStep list2) [] := by
  have h : (fun inter elem => list2.foldl (fun inter2 elem_2 =>
      if elem = elem_2 then (if elem ∈ inter2 then inter2 else inter2 ++ [elem]) else inter2)
      inter) = interStep list2 := by
    funext inter elem
    rw [inner_fold_eq]
    rfl
  rw [find_intersection, h]

theorem mem_foldl_interStep (list2 l acc : List String) (x : String) :
    x ∈ l.foldl (interStep list2) acc ↔ x ∈ acc ∨ (x ∈ l ∧ x ∈ list2) := by
  induction l generalizing acc with
  | nil => simp
  | cons e l' ih =>
    simp only [List.foldl_cons, ih, interStep]
    by_cases hx : x = e <;> by_cases h1 : e ∈ list2 <;> by_cases h2 : e ∈ acc <;>
      subst_eqs <;> simp_all

theorem nodup_foldl_interStep (list2 l acc : List String) (h : acc.Nodup) :
    (l.foldl (interStep list2) acc).Nodup := by
  induction l generalizing acc with
  | nil => exact h
  | cons e l' ih =>
    simp only [List.foldl_cons]
    apply ih
    unfold interStep
    split_ifs with h1
    · simp [List.nodup_append, h, h1.2]
    · exact h

theorem foldl_interStep_sublist (list2 l acc : List String) :
    ∃ t, l.foldl (interStep list2) acc = acc ++ t ∧ t.Sublist l := by
  induction l generalizing acc with
  | nil => exact ⟨[], by simp, List.nil_sublist _⟩
  | cons e l' ih =>
    rw [List.foldl_cons]
    by_cases h1 : e ∈ list2 ∧ e ∉ acc
    · rw [show interStep list2 acc e = acc ++ [e] from by simp [interStep, h1]]
      obtain ⟨t, ht, hs⟩ := ih (acc ++ [e])
      exact ⟨e :: t, by rw [ht, List.append_assoc]; rfl, hs.cons₂ e⟩
    · rw [show interStep list2 acc e = acc from by simp [interStep, h1]]
      obtain ⟨t, ht, hs⟩ := ih acc
      exact ⟨t, ht, hs.cons e⟩

theorem foldl_interStep_filter (list2 l acc : List String) (hl : l.Nodup)
    (hd : ∀ x ∈ l, x ∉ acc) :
    l.foldl (interStep list2) acc = acc ++ l.filter (fun e => decide (e ∈ list2)) := by
  induction l generalizing acc with
  | nil => simp
  | cons e l' ih =>
    have he : e ∉ acc := hd e (List.mem_cons_self e l')
    obtain ⟨hne, hl'⟩ := List.nodup_cons.mp hl
    rw [List.foldl_cons]
    by_cases h1 : e ∈ list2
    · rw [show interStep list2 acc e = acc ++ [e] from by simp [interStep, h1, he],
        ih (acc ++ [e]) hl' (fun x hx => by
          simp only [List.mem_append, List.mem_singleton]
          rintro (hxa | rfl)
          · exact hd x (List.mem_cons_of_mem e hx) hxa
          · exact hne hx)]
      simp [h1]
    · rw [show interStep list2 acc e = acc from by simp [interStep, h1],
        ih acc hl' (fun x hx => hd x (List.mem_cons_of_mem e hx))]
      simp [h1]

theorem find_intersection_self (l : List String) (h : l.Nodup) :
    find_intersection l l = l := by
  rw [find_intersection_eq_foldl, foldl_interStep_filter l l [] h (by simp)]
  simp [List.filter_eq_self]

theorem mem_find_intersection (a b : List String) (x : String) :
    x ∈ find_intersection a b ↔ x ∈ a ∧ x ∈ b := by
  rw [find_intersection_eq_foldl, mem_foldl_interStep]
  simp

theorem popNList_eq_nil (n : Nat) : ∀ l : List String, l.length ≤ n → popNList l n = [] := by
  induction n with
  | zero =>
    intro l h
    rw [Nat.le_zero, List.length_eq_zero] at h
    rw [h, popNList]
  | succ n ih =>
    intro l h
    rw [popNList]
    apply ih
    rw [List.length_dropLast]
    omega

theorem popAllList_eq_nil (l : List String) : popAllList l = [] :=
  popNList_eq_nil l.length l le_rfl

theorem mem_searchStep (index : Index) (acc : List String) (t D : String) :
    D ∈ searchStep index acc t ↔ D ∈ acc ∧ docInTerm index t D := by
  unfold searchStep docInTerm
  cases h : dictLookup index t with
  | none => simp [popAllList_eq_nil]
  | some l2 => simp [mem_find_intersection]

theorem mem_foldl_searchStep (index : Index) (ws acc : List String) (D : String) :
    D ∈ ws.foldl (searchStep index) acc ↔ D ∈ acc ∧ ∀ t ∈ ws, docInTerm index t D := by
  induction ws generalizing acc with
  | nil => simp
  | cons t ws' ih =>
    rw [List.foldl_cons, ih, mem_searchStep]
    simp [List.forall_mem_cons, and_assoc]

/-- C1: for an index with duplicate-free document lists and a query with
at least one whitespace-separated term, `search` succeeds and a document
is in its result iff every query term, exactly as given, is a key of the
index and the document occurs in every one of those terms' lists. -/
theorem search_conjunctive_correct (index : Index) (query D : String)
    (hnd : ∀ p ∈ index, p.2.Nodup) (hq : pySplit query ≠ []) :
    ∃ res, search index query = some res ∧
      (D ∈ res ↔ ∀ t ∈ pySplit query, docInTerm index t D) := by
  cases hw : pySplit query with
  | nil => exact absurd hw hq
  | cons w ws =>
    refine ⟨ws.foldl (searchStep index)
      (match dictLookup index w with | some l => l | none => []), ?_, ?_⟩
    · rw [search.eq_def, hw]
    · rw [mem_foldl_searchStep]
      have hstart : D ∈ (match dictLookup index w with | some l => l | none => [])
          ↔ docInTerm index w D := by
        cases h : dictLookup index w <;> simp [h, docInTerm]
      rw [hstart]
      simp [List.forall_mem_cons]

theorem search_conjunctive_correct_witness :
    ∃ res, search [("apple", ["t1"]), ("ball", ["t1", "t2"])] "apple ball" = some res ∧
      (("t1" : String) ∈ res ↔
        ∀ t ∈ pySplit "apple ball",
          docInTerm [("apple", ["t1"]), ("ball", ["t1", "t2"])] t "t1") :=
  search_conjunctive_correct _ "apple ball" "t1" (by decide) (by decide)

/-- C2 counterexample: on a query with zero terms `search` hits the
unguarded `words[0]` and fails (`none`); it does not return the empty
sequence. -/
theorem search_empty_query_fails :
    search ([] : Index) "" = none ∧ search ([] : Index) "" ≠ some [] := by
  decide

/-- C2 (amended): a query yielding zero whitespace-separated terms makes
`search` fail with an index error (the unguarded `words[0]`), rather than
return an empty sequence; every query with at least one term returns a
sequence. -/
theorem search_none_iff_no_terms (index : Index) (query : String) :
    search index query = none ↔ pySplit query = [] := by
  cases hw : pySplit query with
  | nil => simp [search.eq_def, hw]
  | cons w ws => simp [search.eq_def, hw]

/-- C5: `find_intersection` returns exactly the documents present in both
input lists, each at most once, in the relative order of the first list
(the result is a sublist of `a`). -/
theorem find_intersection_spec (a b : List String) :
    (∀ d, d ∈ find_intersection a b ↔ d ∈ a ∧ d ∈ b) ∧
      (find_intersection a b).Nodup ∧ (find_intersection a b).Sublist a := by
  refine ⟨mem_find_intersection a b, ?_, ?_⟩
  · rw [find_intersection_eq_foldl]
    exact nodup_foldl_interStep b a [] List.nodup_nil
  · rw [find_intersection_eq_foldl]
    obtain ⟨t, ht, hs⟩ := foldl_interStep_sublist b a []
    rw [ht]
    simpa using hs

/-- C10: `find_intersection` is idempotent on duplicate-free lists, and
consequently a present term repeated in a query yields the same result as
its single occurrence, for indexes with duplicate-free lists. -/
theorem find_intersection_idem_repeated_query :
    (∀ l : List String, l.Nodup → find_intersection l l = l) ∧
      (∀ (index : Index) (q1 q2 t : String) (l : List String),
        pySplit q1 = [t] → pySplit q2 = [t, t] →
        dictLookup index t = some l → l.Nodup →
        search index q2 = search index q1) := by
  refine ⟨find_intersection_self, ?_⟩
  intro index q1 q2 t l h1 h2 hl hnd
  rw [search.eq_def, search.eq_def, h1, h2]
  simp only [List.foldl_cons, List.foldl_nil, hl, searchStep]
  rw [find_intersection_self l hnd]

theorem find_intersection_idem_repeated_query_witness :
    find_intersection ["d"] ["d"] = ["d"] ∧
      search [("a", ["d"])] "a a" = search [("a", ["d"])] "a" :=
  ⟨find_intersection_idem_repeated_query.1 ["d"] (by decide),
    find_intersection_idem_repeated_query.2 [("a", ["d"])] "a" "a a" "a" ["d"]
      (by decide) (by decide) (by decide) (by decide)⟩

theorem dictLookup_mem {α : Type} (d : List (String × α)) (k : String) (v : α)
    (h : dictLookup d k = some v) : (k, v) ∈ d := by
  induction d with
  | nil => simp [dictLookup] at h
  | cons p rest ih =>
    obtain ⟨k1, v1⟩ := p
    rw [dictLookup] at h
    by_cases h1 : k = k1
    · rw [if_pos h1] at h
      injection h with h
      subst h1 h
      exact List.mem_cons_self _ _
    · rw [if_neg h1] at h
      exact List.mem_cons_of_mem _ (ih h)

theorem addWords_nil (index : Index) (file : String) : addWords index file [] = index := rfl

theorem addWords_cons (index : Index) (file w : String) (ws : List String) :
    addWords index file (w :: ws)
      = addWords (if clean_word w = "" then index
          else add_term_to_index index (clean_word w) file) file ws := rfl

theorem indexLines_nil (index : Index) (file : String) : indexLines index file [] = index := rfl

theorem indexLines_cons (index : Index) (file line : String) (lines : List String) :
    indexLines index file (line :: lines)
      = indexLines (addWords index file (make_list_of_words line)) file lines := rfl

theorem add_term_eq_of_lookup_none (index : Index) (term file : String)
    (h : dictLookup index term = none) :
    add_term_to_index index term file = dictSet index term [file] := by
  unfold add_term_to_index
  rw [h]

theorem add_term_eq_of_mem (index : Index) (term file : String) (files : List String)
    (h : dictLookup index term = some files) (hf : file ∈ files) :
    add_term_to_index index term file = index := by
  unfold add_term_to_index
  rw [h]
  show (if file ∈ files then index else dictSet index term (files ++ [file])) = index
  rw [if_pos hf]

theorem add_term_eq_of_not_mem (index : Index) (term file : String) (files : List String)
    (h : dictLookup index term = some files) (hf : file ∉ files) :
    add_term_to_index index term file = dictSet index term (files ++ [file]) := by
  unfold add_term_to_index
  rw [h]
  show (if file ∈ files then index else dictSet index term (files ++ [file]))
      = dictSet index term (files ++ [file])
  rw [if_neg hf]

theorem lookupNodup_add_term (index : Index) (term file : String)
    (h : ∀ t l, dictLookup index t = some l → l.Nodup) :
    ∀ t l, dictLookup (add_term_to_index index term file) t = some l → l.Nodup := by
  intro t l hl
  cases hcase : dictLookup index term with
  | none =>
    rw [add_term_eq_of_lookup_none index term file hcase, dictLookup_dictSet] at hl
    by_cases ht : t = term
    · rw [if_pos ht] at hl
      injection hl with hl
      subst hl
      simp
    · rw [if_neg ht] at hl
      exact h t l hl
  | some files =>
    by_cases hf : file ∈ files
    · rw [add_term_eq_of_mem index term file files hcase hf] at hl
      exact h t l hl
    · rw [add_term_eq_of_not_mem index term file files hcase hf, dictLookup_dictSet] at hl
      by_cases ht : t = term
      · rw [if_pos ht] at hl
        injection hl with hl
        subst hl
        simp [List.nodup_append, h term files hcase, hf]
      · rw [if_neg ht] at hl
        exact h t l hl

theorem lookupNodup_addWords (file : String) (ws : List String) :
    ∀ index : Index, (∀ t l, dictLookup index t = some l → l.Nodup) →
      ∀ t l, dictLookup (addWords index file ws) t = some l → l.Nodup := by
  induction ws with
  | nil => intro index h; exact h
  | cons w ws' ih =>
    intro index h
    rw [addWords_cons]
    apply ih
    by_cases hw : clean_word w = ""
    · rw [if_pos hw]; exact h
    · rw [if_neg hw]; exact lookupNodup_add_term index (clean_word w) file h

theorem lookupNodup_indexLines (file : String) (lines : List String) :
    ∀ index : Index, (∀ t l, dictLookup index t = some l → l.Nodup) →
      ∀ t l, dictLookup (indexLines index file lines) t = some l → l.Nodup := by
  induction lines with
  | nil => intro index h; exact h
  | cons line lines' ih =>
    intro index h
    rw [indexLines_cons]
    exact ih _ (lookupNodup_addWords file (make_list_of_words line) index h)

theorem lookupNodup_create_index (docs : List Doc) :
    ∀ (index : Index) (titles : Titles),
      (∀ t l, dictLookup index t = some l → l.Nodup) →
      ∀ t l, dictLookup (create_index docs index titles).index t = some l → l.Nodup := by
  induction docs with
  | nil => intro index titles h; exact h
  | cons d ds ih =>
    intro index titles h
    cases hd : d.lines with
    | nil => simp only [create_index, hd]; exact h
    | cons first rest =>
      simp only [create_index, hd]
      apply ih
      exact lookupNodup_indexLines d.id rest _
        (lookupNodup_addWords d.id (make_list_of_words (pyDropLast first)) index h)

/-- C8: `create_index` preserves the invariant that each term's document
list contains any given document identifier at most once (all lists
duplicate-free before implies all lists duplicate-free after). -/
theorem create_index_preserves_nodup (docs : List Doc) (index : Index) (titles : Titles)
    (h : ∀ p ∈ index, p.2.Nodup) :
    ∀ t l, dictLookup (create_index docs index titles).index t = some l → l.Nodup :=
  lookupNodup_create_index docs index titles
    (fun t l hl => h (t, l) (dictLookup_mem index t l hl))

theorem create_index_preserves_nodup_witness :
    dictLookup (create_index [⟨"f.txt", ["A Title\n", "ball ball apple\n"]⟩]
        [("x", ["f.txt", "g.txt"])] []).index "ball" = some ["f.txt"] ∧
      (["f.txt"] : List String).Nodup :=
  ⟨by decide,
    create_index_preserves_nodup [⟨"f.txt", ["A Title\n", "ball ball apple\n"]⟩]
      [("x", ["f.txt", "g.txt"])] [] (by decide) "ball" ["f.txt"] (by decide)⟩

/-- C3 (code bug): re-indexing a document identifier with a different
title payload overwrites its stored title, because the code tests the
title string against the title map's keys (file names) instead of the
file name; the spec's first-seen-wins retention fails. -/
theorem title_overwritten_on_reindex :
    dictLookup (create_index [⟨"a.txt", ["Old Title\n"]⟩] [] []).titles "a.txt"
        = some "Old Title" ∧
      dictLookup (create_index [⟨"a.txt", ["New Title\n"]⟩]
          (create_index [⟨"a.txt", ["Old Title\n"]⟩] [] []).index
          (create_index [⟨"a.txt", ["Old Title\n"]⟩] [] []).titles).titles "a.txt"
        = some "New Title" := by
  decide

/-- C7 (code bug): a document whose title line equals an already-indexed
file name contributes terms to the inverted index but never enters the
title map, again because the membership test compares the title string
with the map's keys. -/
theorem contributing_doc_missing_from_titles :
    (∃ l, dictLookup (create_index [⟨"a", ["T\n"]⟩, ⟨"b", ["a\n"]⟩] [] []).index "a"
        = some l ∧ "b" ∈ l) ∧
      dictLookup (create_index [⟨"a", ["T\n"]⟩, ⟨"b", ["a\n"]⟩] [] []).titles "b" = none := by
  exact ⟨⟨["b"], by decide, by decide⟩, by decide⟩

/-- C4 counterexample: a first line with no trailing newline is not
stored unaltered: `next(f)[:-1]` removes its last character
(`"Hi"` is stored as `"H"`). -/
theorem title_drops_last_char_of_bare_line :
    dictLookup (create_index [⟨"d.txt", ["Hi"]⟩] [] []).titles "d.txt" = some "H" ∧
      ("H" : String) ≠ "Hi" := by
  decide

/-- C4 (amended): the stored title is the first line with its final
character removed (`pyDropLast`), which equals stripping the trailing
line terminator exactly when the first line ends with a newline. -/
theorem title_stored_drop_last (index : Index) (titles : Titles) (file first : String)
    (rest : List String) (hnew : dictLookup titles (pyDropLast first) = none) :
    dictLookup (create_index [⟨file, first :: rest⟩] index titles).titles file
        = some (pyDropLast first) ∧
      ∀ l : List Char, first.toList = l ++ ['\n'] → pyDropLast first = l.asString := by
  constructor
  · show dictLookup (processDoc index titles file first rest).2 file = some (pyDropLast first)
    unfold processDoc
    simp [hnew, dictLookup_dictSet]
  · intro l hl
    unfold pyDropLast
    rw [hl, List.dropLast_concat]

theorem title_stored_drop_last_witness :
    dictLookup (create_index [⟨"d.txt", ["My Title\n"]⟩] [] []).titles "d.txt"
        = some (pyDropLast "My Title\n") ∧
      ∀ l : List Char, ("My Title\n" : String).toList = l ++ ['\n'] →
        pyDropLast "My Title\n" = l.asString :=
  title_stored_drop_last [] [] "d.txt" "My Title\n" [] (by decide)

theorem processDoc_fst (index : Index) (titles : Titles) (file first : String)
    (rest : List String) :
    (processDoc index titles file first rest).1
      = indexLines (addWords index file (make_list_of_words (pyDropLast first))) file rest := rfl

theorem processDoc_snd (index : Index) (titles : Titles) (file first : String)
    (rest : List String) :
    (processDoc index titles file first rest).2
      = if dictLookup titles (pyDropLast first) = none
          then dictSet titles file (pyDropLast first) else titles := rfl

theorem create_index_cons_of_empty (d : Doc) (ds : List Doc) (index : Index)
    (titles : Titles) (h : d.lines = []) :
    create_index (d :: ds) index titles = ⟨index, titles, false⟩ := by
  conv_lhs => rw [create_index]
  rw [h]

theorem create_index_cons_of_lines (d : Doc) (ds : List Doc) (index : Index)
    (titles : Titles) (first : String) (rest : List String) (h : d.lines = first :: rest) :
    create_index (d :: ds) index titles
      = create_index ds (processDoc index titles d.id first rest).1
          (processDoc index titles d.id first rest).2 := by
  conv_lhs => rw [create_index]
  rw [h]

theorem docInTerm_add_term (index : Index) (t f t2 f2 : String)
    (h : docInTerm index t f) : docInTerm (add_term_to_index index t2 f2) t f := by
  obtain ⟨l, hl, hf⟩ := h
  cases hcase : dictLookup index t2 with
  | none =>
    rw [add_term_eq_of_lookup_none _ _ _ hcase]
    by_cases ht : t = t2
    · subst ht
      rw [hcase] at hl
      cases hl
    · exact ⟨l, by rw [dictLookup_dictSet, if_neg ht]; exact hl, hf⟩
  | some files =>
    by_cases hf2 : f2 ∈ files
    · rw [add_term_eq_of_mem _ _ _ _ hcase hf2]
      exact ⟨l, hl, hf⟩
    · rw [add_term_eq_of_not_mem _ _ _ _ hcase hf2]
      by_cases ht : t = t2
      · subst ht
        rw [hl] at hcase
        injection hcase with hc
        subst hc
        exact ⟨l ++ [f2], by rw [dictLookup_dictSet, if_pos rfl],
          List.mem_append_left _ hf⟩
      · exact ⟨l, by rw [dictLookup_dictSet, if_neg ht]; exact hl, hf⟩

theorem docInTerm_add_term_self (index : Index) (t f : String) :
    docInTerm (add_term_to_index index t f) t f := by
  cases hcase : dictLookup index t with
  | none =>
    rw [add_term_eq_of_lookup_none _ _ _ hcase]
    exact ⟨[f], by rw [dictLookup_dictSet, if_pos rfl], by simp⟩
  | some files =>
    by_cases hf : f ∈ files
    · rw [add_term_eq_of_mem _ _ _ _ hcase hf]
      exact ⟨files, hcase, hf⟩
    · rw [add_term_eq_of_not_mem _ _ _ _ hcase hf]
      exact ⟨files ++ [f], by rw [dictLookup_dictSet, if_pos rfl], by simp⟩

theorem add_term_noop (index : Index) (t f : String) (h : docInTerm index t f) :
    add_term_to_index index t f = index := by
  obtain ⟨l, hl, hf⟩ := h
  exact add_term_eq_of_mem index t f l hl hf

theorem docInTerm_addWords (file : String) (ws : List String) :
    ∀ (index : Index) (t f : String), docInTerm index t f →
      docInTerm (addWords index file ws) t f := by
  induction ws with
  | nil => intro index t f h; exact h
  | cons w ws' ih =>
    intro index t f h
    rw [addWords_cons]
    apply ih
    by_cases hw : clean_word w = ""
    · rw [if_pos hw]; exact h
    · rw [if_neg hw]; exact docInTerm_add_term _ _ _ _ _ h

theorem addWords_post (file : String) (ws : List String) :
    ∀ index : Index, ∀ w ∈ ws, clean_word w ≠ "" →
      docInTerm (addWords index file ws) (clean_word w) file := by
  induction ws with
  | nil => intro index w hw; simp at hw
  | cons w0 ws' ih =>
    intro index w hw hne
    rw [addWords_cons]
    rcases List.mem_cons.mp hw with rfl | hw'
    · apply docInTerm_addWords
      rw [if_neg hne]
      exact docInTerm_add_term_self _ _ _
    · exact ih _ w hw' hne

theorem addWords_noop (file : String) (ws : List String) :
    ∀ index : Index,
      (∀ w ∈ ws, clean_word w ≠ "" → docInTerm index (clean_word w) file) →
      addWords index file ws = index := by
  induction ws with
  | nil => intro index _; rfl
  | cons w0 ws' ih =>
    intro index h
    rw [addWords_cons]
    by_cases hw : clean_word w0 = ""
    · rw [if_pos hw]
      exact ih index (fun w hw' => h w (List.mem_cons_of_mem _ hw'))
    · rw [if_neg hw, add_term_noop _ _ _ (h w0 (List.mem_cons_self _ _) hw)]
      exact ih index (fun w hw' => h w (List.mem_cons_of_mem _ hw'))

theorem docInTerm_indexLines (file : String) (lines : List String) :
    ∀ (index : Index) (t f : String), docInTerm index t f →
      docInTerm (indexLines index file lines) t f := by
  induction lines with
  | nil => intro index t f h; exact h
  | cons line lines' ih =>
    intro index t f h
    rw [indexLines_cons]
    exact ih _ _ _ (docInTerm_addWords _ _ _ _ _ h)

theorem indexLines_post (file : String) (lines : List String) :
    ∀ index : Index, ∀ line ∈ lines, ∀ w ∈ make_list_of_words line, clean_word w ≠ "" →
      docInTerm (indexLines index file lines) (clean_word w) file := by
  induction lines with
  | nil => intro index line hl; simp at hl
  | cons line0 lines' ih =>
    intro index line hl w hw hne
    rw [indexLines_cons]
    rcases List.mem_cons.mp hl with rfl | hl'
    · exact docInTerm_indexLines _ _ _ _ _ (addWords_post _ _ _ w hw hne)
    · exact ih _ line hl' w hw hne

theorem indexLines_noop (file : String) (lines : List String) :
    ∀ index : Index,
      (∀ line ∈ lines, ∀ w ∈ make_list_of_words line, clean_word w ≠ "" →
        docInTerm index (clean_word w) file) →
      indexLines index file lines = index := by
  induction lines with
  | nil => intro index _; rfl
  | cons line0 lines' ih =>
    intro index h
    rw [indexLines_cons,
      addWords_noop _ _ _ (fun w hw hne => h line0 (List.mem_cons_self _ _) w hw hne)]
    exact ih index (fun line hl => h line (List.mem_cons_of_mem _ hl))

theorem isSome_dictSet {α : Type} (d : List (String × α)) (k k2 : String) (v : α)
    (h : (dictLookup d k).isSome) : (dictLookup (dictSet d k2 v) k).isSome := by
  rw [dictLookup_dictSet]
  by_cases hk : k = k2 <;> simp [hk, h]

theorem applied_processDoc_self (d : Doc) (index : Index) (titles : Titles)
    (first : String) (rest : List String) (hd : d.lines = first :: rest) :
    Applied d (processDoc index titles d.id first rest).1
      (processDoc index titles d.id first rest).2 := by
  unfold Applied
  rw [hd, processDoc_fst, processDoc_snd]
  refine ⟨?_, ?_, ?_⟩
  · intro w hw hne
    exact docInTerm_indexLines _ _ _ _ _ (addWords_post _ _ _ w hw hne)
  · intro line hl w hw hne
    exact indexLines_post _ _ _ line hl w hw hne
  · by_cases hc : dictLookup titles (pyDropLast first) = none
    · right
      rw [if_pos hc, dictLookup_dictSet, if_pos rfl]
    · left
      rw [if_neg hc]
      exact Option.ne_none_iff_isSome.mp hc

theorem applied_processDoc_other (d e : Doc) (index : Index) (titles : Titles)
    (first2 : String) (rest2 : List String) (he : e.lines = first2 :: rest2)
    (hcons : e.id = d.id → e.lines = d.lines)
    (h : Applied d index titles) :
    Applied d (processDoc index titles e.id first2 rest2).1
      (processDoc index titles e.id first2 rest2).2 := by
  cases hd : d.lines with
  | nil => unfold Applied; rw [hd]; trivial
  | cons first rest =>
    unfold Applied at h ⊢
    rw [hd] at h ⊢
    obtain ⟨h1, h2, h3⟩ := h
    rw [processDoc_fst, processDoc_snd]
    refine ⟨?_, ?_, ?_⟩
    · intro w hw hne
      exact docInTerm_indexLines _ _ _ _ _ (docInTerm_addWords _ _ _ _ _ (h1 w hw hne))
    · intro line hl w hw hne
      exact docInTerm_indexLines _ _ _ _ _ (docInTerm_addWords _ _ _ _ _ (h2 line hl w hw hne))
    · by_cases hc : dictLookup titles (pyDropLast first2) = none
      · rw [if_pos hc]
        rcases h3 with h3 | h3
        · left
          exact isSome_dictSet _ _ _ _ h3
        · by_cases hid : e.id = d.id
          · right
            have hlines : first2 :: rest2 = first :: rest := by
              rw [← he, ← hd, hcons hid]
            rw [dictLookup_dictSet, if_pos hid.symm]
            injection hlines with hfirst _
            rw [hfirst]
          · right
            rw [dictLookup_dictSet, if_neg (fun hh => hid (hh.symm))]
            exact h3
      · rw [if_neg hc]
        exact h3

theorem applied_create_index (docs : List Doc) (d : Doc) :
    ∀ (index : Index) (titles : Titles),
      (∀ e ∈ docs, e.id = d.id → e.lines = d.lines) →
      Applied d index titles →
      Applied d (create_index docs index titles).index (create_index docs index titles).titles := by
  induction docs with
  | nil => intro index titles _ h; exact h
  | cons e ds ih =>
    intro index titles hcons h
    cases he : e.lines with
    | nil =>
      rw [create_index_cons_of_empty _ _ _ _ he]
      exact h
    | cons first2 rest2 =>
      rw [create_index_cons_of_lines _ _ _ _ _ _ he]
      exact ih _ _ (fun e2 he2 => hcons e2 (List.mem_cons_of_mem _ he2))
        (applied_processDoc_other d e index titles first2 rest2 he
          (hcons e (List.mem_cons_self _ _)) h)

theorem processDoc_noop (d : Doc) (index : Index) (titles : Titles)
    (first : String) (rest : List String) (hd : d.lines = first :: rest)
    (h : Applied d index titles) :
    processDoc index titles d.id first rest = (index, titles) := by
  unfold Applied at h
  rw [hd] at h
  obtain ⟨h1, h2, h3⟩ := h
  have hidx : (processDoc index titles d.id first rest).1 = index := by
    rw [processDoc_fst, addWords_noop _ _ _ h1]
    exact indexLines_noop _ _ _ h2
  have htit : (processDoc index titles d.id first rest).2 = titles := by
    rw [processDoc_snd]
    rcases h3 with h3 | h3
    · rw [if_neg (Option.ne_none_iff_isSome.mpr h3)]
    · by_cases hc : dictLookup titles (pyDropLast first) = none
      · rw [if_pos hc]
        exact dictSet_lookup_eq _ _ _ h3
      · rw [if_neg hc]
  calc processDoc index titles d.id first rest
      = ((processDoc index titles d.id first rest).1,
          (processDoc index titles d.id first rest).2) := rfl
    _ = (index, titles) := by rw [hidx, htit]

/-- C6: re-running `create_index` on the same document list is a no-op:
the index, the title map and the success flag all come out unchanged,
from any starting accumulators. -/
theorem create_index_idempotent (docs : List Doc) :
    ∀ (index : Index) (titles : Titles), idsConsistent docs →
      create_index docs (create_index docs index titles).index
          (create_index docs index titles).titles
        = create_index docs index titles := by
  induction docs with
  | nil => intro index titles _; rfl
  | cons d ds ih =>
    intro index titles hcons
    cases hd : d.lines with
    | nil =>
      rw [create_index_cons_of_empty d ds index titles hd]
      show create_index (d :: ds) index titles = ⟨index, titles, false⟩
      exact create_index_cons_of_empty d ds index titles hd
    | cons first rest =>
      rw [create_index_cons_of_lines d ds index titles first rest hd]
      have happ : Applied d
          (create_index ds (processDoc index titles d.id first rest).1
            (processDoc index titles d.id first rest).2).index
          (create_index ds (processDoc index titles d.id first rest).1
            (processDoc index titles d.id first rest).2).titles :=
        applied_create_index ds d _ _
          (fun e he hid => hcons e (List.mem_cons_of_mem _ he) d (List.mem_cons_self _ _) hid)
          (applied_processDoc_self d index titles first rest hd)
      rw [create_index_cons_of_lines d ds _ _ first rest hd,
        processDoc_noop d _ _ first rest hd happ]
      exact ih _ _ (fun d1 h1 d2 h2 =>
        hcons d1 (List.mem_cons_of_mem _ h1) d2 (List.mem_cons_of_mem _ h2))

theorem create_index_idempotent_witness :
    create_index [⟨"t1.txt", ["File 1 Title\n", "apple ball carrot\n"]⟩]
        (create_index [⟨"t1.txt", ["File 1 Title\n", "apple ball carrot\n"]⟩] [] []).index
        (create_index [⟨"t1.txt", ["File 1 Title\n", "apple ball carrot\n"]⟩] [] []).titles
      = create_index [⟨"t1.txt", ["File 1 Title\n", "apple ball carrot\n"]⟩] [] [] :=
  create_index_idempotent _ [] [] (by
    intro d1 h1 d2 h2 _
    simp only [List.mem_singleton] at h1 h2
    rw [h1, h2])

theorem getD_set_ne {α : Type} (l : List α) (i j : Nat) (v d : α) (hij : i ≠ j) :
    (l.set i v).getD j d = l.getD j d := by
  induction l generalizing i j with
  | nil => simp [List.set]
  | cons x xs ih =>
    cases i with
    | zero =>
      cases j with
      | zero => exact absurd rfl hij
      | succ j' => simp [List.set]
    | succ i' =>
      cases j with
      | zero => simp [List.set]
      | succ j' =>
        simp only [List.set, List.getD_cons_succ]
        exact ih i' j' (fun hh => hij (by rw [hh]))

theorem getD_append_left {α : Type} (l l2 : List α) (j : Nat) (d : α)
    (h : j < l.length) : (l ++ l2).getD j d = l.getD j d := by
  induction l generalizing j with
  | nil => simp at h
  | cons x xs ih =>
    cases j with
    | zero => simp
    | succ j' =>
      simp only [List.cons_append, List.getD_cons_succ]
      exact ih j' (by simpa using h)

theorem heap_get_set_ne (h : Heap) (r2 r : Nat) (v : List String) (hne : r2 ≠ r) :
    (h.set r2 v).get r = h.get r :=
  getD_set_ne h.cells r2 r v [] hne

theorem heap_get_alloc (h : Heap) (v : List String) (r : Nat) (hr : r < h.cells.length) :
    (h.alloc v).1.get r = h.get r :=
  getD_append_left h.cells [v] r [] hr

theorem heap_length_set (h : Heap) (r : Nat) (v : List String) :
    (h.set r v).cells.length = h.cells.length := by
  simp [Heap.set]

theorem heap_length_alloc (h : Heap) (v : List String) :
    (h.alloc v).1.cells.length = h.cells.length + 1 := by
  simp [Heap.alloc]

theorem heap_get_popNH (n : Nat) : ∀ (h : Heap) (r2 r : Nat), r2 ≠ r →
    (popNH h r2 n).get r = h.get r := by
  induction n with
  | zero => intro h r2 r _; rfl
  | succ n ih =>
    intro h r2 r hne
    rw [popNH, ih _ _ _ hne, heap_get_set_ne _ _ _ _ hne]

theorem heap_length_popNH (n : Nat) : ∀ (h : Heap) (r2 : Nat),
    (popNH h r2 n).cells.length = h.cells.length := by
  induction n with
  | zero => intro h r2; rfl
  | succ n ih =>
    intro h r2
    rw [popNH, ih, heap_length_set]

theorem frameInv_searchStepH (h0 : Heap) (index : IndexH) (st : Heap × Nat) (t : String)
    (hinv : FrameInv h0 st) : FrameInv h0 (searchStepH index st t) := by
  obtain ⟨hagree, hlen, hcur⟩ := hinv
  cases hc : dictLookup index t with
  | none =>
    simp only [searchStepH, hc]
    refine ⟨?_, ?_, hcur⟩
    · intro r hr
      rw [heap_get_popNH _ _ _ _ (by omega)]
      exact hagree r hr
    · rw [heap_length_popNH]
      exact hlen
  | some r2 =>
    simp only [searchStepH, hc]
    refine ⟨?_, ?_, ?_⟩
    · intro r hr
      rw [heap_get_alloc _ _ _ (by omega)]
      exact hagree r hr
    · rw [heap_length_alloc]
      omega
    · show h0.cells.length ≤ st.1.cells.length
      exact hlen

theorem frameInv_foldl (h0 : Heap) (index : IndexH) (ws : List String) :
    ∀ st : Heap × Nat, FrameInv h0 st →
      FrameInv h0 (ws.foldl (searchStepH index) st) := by
  induction ws with
  | nil => intro st h; exact h
  | cons t ws' ih =>
    intro st h
    rw [List.foldl_cons]
    exact ih _ (frameInv_searchStepH h0 index st t h)

/-- C9: `search` has no side effect on the inverted index.  The term-to-
reference map is a pure value the code never writes, and the heap after a
successful `search` agrees with the heap before it on every term's
document-list object: only the freshly allocated `list_of_files` objects
are ever mutated (`+=`, the pop loop) or created (`find_intersection`). -/
theorem search_no_side_effects (h : Heap) (index : IndexH) (query t : String) (r : Nat)
    (hr : dictLookup index t = some r) (hvalid : r < h.cells.length)
    (h2 : Heap) (res : Nat) (hs : searchH h index query = some (h2, res)) :
    h2.get r = h.get r := by
  unfold searchH at hs
  cases hw : pySplit query with
  | nil =>
    rw [hw] at hs
    cases hs
  | cons w ws =>
    rw [hw] at hs
    injection hs with hs
    have hstart : FrameInv h
        ((match dictLookup index w with
          | some r0 => (h.alloc []).1.set (h.alloc []).2
              (((h.alloc []).1.get (h.alloc []).2) ++ ((h.alloc []).1.get r0))
          | none => (h.alloc []).1), (h.alloc []).2) := by
      cases hc : dictLookup index w with
      | none =>
        simp only [hc]
        exact ⟨fun r1 hr1 => heap_get_alloc _ _ _ hr1, by rw [heap_length_alloc]; omega,
          le_refl _⟩
      | some r0 =>
        simp only [hc]
        refine ⟨?_, ?_, le_refl _⟩
        · intro r1 hr1
          rw [heap_get_set_ne _ _ _ _ (by show h.cells.length ≠ r1; omega)]
          exact heap_get_alloc _ _ _ hr1
        · rw [heap_length_set, heap_length_alloc]
          omega
    have hfinal := frameInv_foldl h index ws _ hstart
    rw [hs] at hfinal
    exact hfinal.1 r hvalid

theorem search_no_side_effects_witness :
    (⟨[["d1"], ["d1"], ["d1"]]⟩ : Heap).get 0 = (⟨[["d1"]]⟩ : Heap).get 0 :=
  search_no_side_effects ⟨[["d1"]]⟩ [("a", 0)] "a a" "a" 0 (by decide) (by decide)
    ⟨[["d1"], ["d1"], ["d1"]]⟩ 2 (by decide)
